import Mathlib

/-!
Formal model of the block-partitioned correlation-matrix pipeline of
`distanceMatrix.ipynb`.  The notebook splits an n-by-N feature matrix into
`p` contiguous row blocks (Stage 1, Spark `parallelize` plus
`mapPartitionsWithIndex`), fans each block out to every candidate partner
index with a canonical unordered pair key (Stage 2, `makePairParts`), groups
records by key (Stage 3, the engine's `groupByKey`), and computes a dense
Pearson block-correlation matrix for each group (Stage 4, `getCorrelation`
over the numpy kernel `corr2_coeff`).

Numbers that the notebook holds in IEEE floats are modelled as real numbers;
the one float phenomenon the kernel can actually produce, the NaN arising
from a `0/0` division when a centered row has zero sum of squares, is
modelled by `Option ℝ` with `none` standing for NaN.  A Python exception
escaping a stage (the `IndexError` of indexing an empty group) is modelled
by the stage returning `none`.
-/

namespace DistMat

/-- Canonical pair key built by the Pair Expander: the Python expression
`sorted([k, l])`, the two block indices in nondecreasing order.  The notebook
keys records by `str(sorted([k, l]))`; Python's `str` renders distinct
integer lists as distinct strings, so grouping by the rendered string is
grouping by the sorted list itself, which is what we model. -/
def pairKey (k l : ℕ) : List ℕ := if k ≤ l then [k, l] else [l, k]

/-- Stage 2 mapper `makePairParts(k, v, p)` of the notebook:
`[(str(sorted([k,l])), (k, v)) for l in range(0, p)]`. -/
def makePairParts (k : ℕ) (v : α) (p : ℕ) : List (List ℕ × ℕ × α) :=
  (List.range p).map fun l => (pairKey k l, (k, v))

/-- Record stream entering the group-by: the Pair Expander run over all `p`
blocks, block `k` carrying data `data k`. -/
def expandAll (p : ℕ) (data : ℕ → α) : List (List ℕ × ℕ × α) :=
  (List.range p).flatMap fun k => makePairParts k (data k) p

/-- Slice `i` of Spark's `sc.parallelize(rows, p)`: the engine's
`ParallelCollectionRDD` slicing assigns slice `i` the positions
`[i*n/p, (i+1)*n/p)` with integer division, `n = rows.length`. -/
def sparkSlice (rows : List α) (p i : ℕ) : List α :=
  (rows.drop (i * rows.length / p)).take
    ((i + 1) * rows.length / p - i * rows.length / p)

/-- Stage 1 of the notebook: `sc.parallelize(matrix, p)` followed by
`mapPartitionsWithIndex` with `f(splitIndex, v) = [(splitIndex, list(v))]`,
tagging each engine slice with its partition index. -/
def stage1 (rows : List α) (p : ℕ) : List (ℕ × List α) :=
  (List.range p).map fun i => (i, sparkSlice rows p i)

/-- Row mean, `A.mean(1)` of numpy: sum of the entries divided by their
count. -/
noncomputable def mean (x : List ℝ) : ℝ := x.sum / x.length

/-- Centered row: `x - x.mean` broadcast over the row, numpy's
`A - A.mean(1)[:,None]` restricted to one row. -/
noncomputable def center (x : List ℝ) : List ℝ := x.map fun t => t - mean x

/-- Dot product of two rows, numpy's `np.dot` on vectors. -/
noncomputable def dotp (x y : List ℝ) : ℝ := (List.zipWith (· * ·) x y).sum

/-- Sum of squares of a row, `(A_mA**2).sum(1)` restricted to one row. -/
noncomputable def ss (x : List ℝ) : ℝ := (x.map fun t => t ^ 2).sum

/-- IEEE division as the kernel meets it: every zero denominator the kernel
can reach is a `0 / 0` (the denominator is `sqrt(ssA*ssB)`, which vanishes
only when a centered operand row is identically zero, forcing the numerator
to vanish too), and floats turn `0 / 0` into NaN, modelled `none`; a nonzero
denominator gives the finite real quotient. -/
noncomputable def fdiv (num den : ℝ) : Option ℝ :=
  if den = 0 then none else some (num / den)

/-- Notebook kernel `corr2_coeff(A, B)`: center every row
(`A_mA = A - A.mean(1)[:,None]`, same for `B`), form the per-row sums of
squares `ssA = (A_mA**2).sum(1)` and `ssB`, and divide the product matrix
`np.dot(A_mA, B_mB.T)` elementwise by `np.sqrt(np.dot(ssA[:,None], ssB[None]))`;
entry `(i, j)` is `dot(A_mA[i], B_mB[j]) / sqrt(ssA[i] * ssB[j])`. -/
noncomputable def corr2_coeff (A B : List (List ℝ)) : List (List (Option ℝ)) :=
  let A_mA := A.map center
  let B_mB := B.map center
  A_mA.map fun xc => B_mB.map fun yc =>
    fdiv (dotp xc yc) (Real.sqrt (ss xc * ss yc))

/-- Stage 4 consumer `getCorrelation(k, v)` of the notebook.  It lists the
group, reads entry `0` (an empty group therefore raises `IndexError`,
modelled `none`), takes the first entry's matrix as the first operand, and:
for a singleton group pairs the block with itself under key `(k0, k0)`;
otherwise it takes entry `1` as the second operand under key `(k0, k1)`,
entries beyond the second being ignored.  The incoming group key `k` is
shadowed before use. -/
noncomputable def getCorrelation (k : List ℕ) (v : List (ℕ × List (List ℝ))) :
    Option ((ℕ × ℕ) × List (List (Option ℝ))) :=
  match v with
  | [] => none
  | [(i, m)] => some ((i, i), corr2_coeff m m)
  | (i, m) :: (j, m2) :: _ => some ((i, j), corr2_coeff m m2)

/-- Pearson correlation of two rows exactly as the specification words it:
the sum of `(x_i - mean x) * (y_i - mean y)` divided by the square root of
the product of the two centered sums of squares.  Specification-side formula
kept for refinement comparison with `corr2_coeff`; it adopts the same NaN
modelling for a vanishing denominator. -/
noncomputable def pearsonSpec (x y : List ℝ) : Option ℝ :=
  fdiv ((List.zipWith (fun a b => (a - mean x) * (b - mean y)) x y).sum)
    (Real.sqrt ((x.map fun a => (a - mean x) ^ 2).sum *
      (y.map fun b => (b - mean y) ^ 2).sum))

/-- Number of Stage 2 records carrying a given key: the total contribution
count the group-by will collect under that key. -/
def keyCount (p : ℕ) (data : ℕ → α) (key : List ℕ) : ℕ :=
  ((expandAll p data).filter fun r => r.1 = key).length

/-- Set of distinct keys the Stage 2 record stream produces. -/
def distinctKeys (p : ℕ) (data : ℕ → α) : Finset (List ℕ) :=
  ((expandAll p data).map Prod.fst).toFinset

/-- Triangle of ordered index pairs `(k, l)` with `k ≤ l < p`: one point per
unordered pair of block indices. -/
def triangle (p : ℕ) : Finset (ℕ × ℕ) :=
  (Finset.range p ×ˢ Finset.range p).filter fun x => x.1 ≤ x.2

theorem pairKey_comm (k l : ℕ) : pairKey k l = pairKey l k := by
  unfold pairKey
  rcases Nat.lt_trichotomy k l with h | h | h
  · rw [if_pos h.le, if_neg (by omega)]
  · simp [h]
  · rw [if_neg (by omega), if_pos h.le]

theorem pairKey_eq_iff (a b c d : ℕ) :
    pairKey a b = pairKey c d ↔ (a = c ∧ b = d) ∨ (a = d ∧ b = c) := by
  unfold pairKey
  split <;> split <;> simp only [List.cons.injEq, and_true] <;> omega

theorem length_filter_flatMap (q : β → Bool) (f : α → List β) (xs : List α) :
    ((xs.flatMap f).filter q).length =
      (xs.map fun x => ((f x).filter q).length).sum := by
  induction xs with
  | nil => rfl
  | cons a xs ih => simp [List.filter_append, ih]

theorem sum_map_indicator (p c : ℕ) :
    ((List.range p).map fun x => if x = c then (1 : ℕ) else 0).sum =
      if c < p then 1 else 0 := by
  induction p with
  | zero => simp
  | succ p ih =>
    rw [List.range_succ, List.map_append, List.sum_append, ih]
    by_cases h : p = c <;> simp [h] <;> split_ifs <;> omega

theorem sum_map_add_nat (f g : ℕ → ℕ) (xs : List ℕ) :
    (xs.map fun x => f x + g x).sum = (xs.map f).sum + (xs.map g).sum := by
  induction xs with
  | nil => rfl
  | cons a xs ih => simp [ih]; omega

theorem length_filter_map (f : α → β) (q : β → Bool) (xs : List α) :
    ((xs.map f).filter q).length = (xs.filter fun x => q (f x)).length := by
  induction xs with
  | nil => rfl
  | cons a xs ih => by_cases h : q (f a) <;> simp [List.filter_cons, h, ih]

theorem count_range_eq (p c : ℕ) :
    ((List.range p).filter fun x => x = c).length = if c < p then 1 else 0 := by
  induction p with
  | zero => simp
  | succ p ih =>
    rw [List.range_succ, List.filter_append, List.length_append, ih]
    by_cases h : p = c <;> simp [h] <;> split_ifs <;> omega

theorem makePairParts_count (x : ℕ) (v : α) (p k l : ℕ) (hk : k ≤ l) (hl : l < p) :
    ((makePairParts x v p).filter fun r => r.1 = pairKey k l).length =
      (if x = k then 1 else 0) + (if x = l ∧ k < l then 1 else 0) := by
  unfold makePairParts
  rw [length_filter_map]
  by_cases hx : x = k
  · subst hx
    have hcong : ∀ l2 ∈ List.range p,
        (decide (pairKey x l2 = pairKey x l)) = decide (l2 = l) := by
      intro l2 _
      simp only [decide_eq_decide, pairKey_eq_iff, eq_self_iff_true, true_and]
      omega
    rw [List.filter_congr hcong, count_range_eq, if_pos hl]
    split_ifs <;> omega
  · by_cases hxl : x = l
    · subst hxl
      have hcong : ∀ l2 ∈ List.range p,
          (decide (pairKey x l2 = pairKey k x)) = decide (l2 = k) := by
        intro l2 _
        simp only [decide_eq_decide, pairKey_eq_iff, eq_self_iff_true, true_and]
        omega
      rw [List.filter_congr hcong, count_range_eq, if_pos (lt_of_le_of_lt hk hl)]
      split_ifs <;> omega
    · have hcong : ∀ l2 ∈ List.range p,
          (decide (pairKey x l2 = pairKey k l)) = false := by
        intro l2 _
        simp only [decide_eq_false_iff_not, pairKey_eq_iff]
        omega
      rw [List.filter_congr hcong]
      simp [hx, hxl]

theorem keyCount_pairKey (p k l : ℕ) (data : ℕ → α) (hk : k ≤ l) (hl : l < p) :
    keyCount p data (pairKey k l) = if k = l then 1 else 2 := by
  unfold keyCount expandAll
  rw [length_filter_flatMap]
  have h1 : ∀ x ∈ List.range p,
      ((makePairParts x (data x) p).filter fun r => r.1 = pairKey k l).length =
        (if x = k then 1 else 0) + (if x = l ∧ k < l then 1 else 0) :=
    fun x _ => makePairParts_count x (data x) p k l hk hl
  rw [List.map_congr_left h1, sum_map_add_nat, sum_map_indicator]
  by_cases hkl : k = l
  · subst hkl
    have h2 : ∀ x ∈ List.range p,
        (if x = k ∧ k < k then (1 : ℕ) else 0) = 0 := by
      intro x _
      simp
    rw [List.map_congr_left h2]
    simp [lt_of_le_of_lt hk hl]
  · have h2 : ∀ x ∈ List.range p,
        (if x = l ∧ k < l then (1 : ℕ) else 0) = if x = l then 1 else 0 := by
      intro x _
      have : k < l := lt_of_le_of_ne hk hkl
      simp [this]
    rw [List.map_congr_left h2, sum_map_indicator]
    simp [lt_of_le_of_lt hk hl, hl, hkl]

theorem triangle_card_two (p : ℕ) : (triangle p).card * 2 = p * (p + 1) := by
  induction p with
  | zero => simp [triangle]
  | succ p ih =>
    have hsplit : triangle (p + 1) =
        triangle p ∪ (Finset.range (p + 1)).image fun k => (k, p) := by
      ext x
      simp only [triangle, Finset.mem_union, Finset.mem_filter, Finset.mem_product,
        Finset.mem_range, Finset.mem_image, Prod.ext_iff]
      constructor
      · rintro ⟨⟨h1, h2⟩, h3⟩
        by_cases hb : x.2 = p
        · exact Or.inr ⟨x.1, by omega, rfl, hb.symm⟩
        · exact Or.inl ⟨⟨by omega, by omega⟩, h3⟩
      · rintro (⟨⟨h1, h2⟩, h3⟩ | ⟨a, ha, h1, h2⟩) <;> [skip; subst h1] <;>
          refine ⟨⟨by omega, by omega⟩, by omega⟩
    have hdisj : Disjoint (triangle p)
        ((Finset.range (p + 1)).image fun k => (k, p)) := by
      rw [Finset.disjoint_left]
      rintro x hx hx2
      simp only [triangle, Finset.mem_filter, Finset.mem_product, Finset.mem_range] at hx
      simp only [Finset.mem_image, Finset.mem_range, Prod.ext_iff] at hx2
      omega
    have himg : ((Finset.range (p + 1)).image fun k => (k, p)).card = p + 1 := by
      rw [Finset.card_image_of_injective _ fun a b hab => (Prod.ext_iff.mp hab).1,
        Finset.card_range]
    rw [hsplit, Finset.card_union_of_disjoint hdisj, himg, add_mul, ih]
    ring

theorem mem_distinctKeys (p : ℕ) (data : ℕ → α) (key : List ℕ) :
    key ∈ distinctKeys p data ↔ ∃ k l, k < p ∧ l < p ∧ pairKey k l = key := by
  simp only [distinctKeys, expandAll, makePairParts, List.mem_toFinset, List.mem_map,
    List.mem_flatMap, List.mem_range]
  constructor
  · rintro ⟨r, ⟨k, hk, l, hl, rfl⟩, hfst⟩
    exact ⟨k, l, hk, hl, hfst⟩
  · rintro ⟨k, l, hk, hl, hkey⟩
    exact ⟨(pairKey k l, (k, data k)), ⟨k, hk, l, hl, rfl⟩, hkey⟩

theorem distinctKeys_eq_image (p : ℕ) (data : ℕ → α) :
    distinctKeys p data = (triangle p).image fun x => pairKey x.1 x.2 := by
  ext key
  rw [mem_distinctKeys]
  simp only [Finset.mem_image, triangle, Finset.mem_filter, Finset.mem_product,
    Finset.mem_range]
  constructor
  · rintro ⟨k, l, hk, hl, hkey⟩
    rcases le_total k l with h | h
    · exact ⟨(k, l), ⟨⟨hk, hl⟩, h⟩, hkey⟩
    · exact ⟨(l, k), ⟨⟨hl, hk⟩, h⟩, (pairKey_comm l k).trans hkey⟩
  · rintro ⟨⟨a, b⟩, ⟨⟨ha, hb⟩, _⟩, hkey⟩
    exact ⟨a, b, ha, hb, hkey⟩

theorem distinctKeys_card (p : ℕ) (data : ℕ → α) :
    (distinctKeys p data).card = p * (p + 1) / 2 := by
  have hinj : Set.InjOn (fun x : ℕ × ℕ => pairKey x.1 x.2) (triangle p) := by
    rintro ⟨a, b⟩ ha ⟨c, d⟩ hc hab
    simp only [triangle, Finset.coe_filter, Finset.mem_coe, Finset.mem_product,
      Finset.mem_range, Set.mem_setOf_eq] at ha hc
    simp only [pairKey_eq_iff] at hab
    have : a = c ∧ b = d := by omega
    exact Prod.ext this.1 this.2
  rw [distinctKeys_eq_image, Finset.card_image_of_injOn hinj]
  have h2 := triangle_card_two p
  omega

theorem expandAll_key_source (p k l : ℕ) (data : ℕ → α) (r : List ℕ × ℕ × α)
    (hr : r ∈ expandAll p data) (hkey : r.1 = pairKey k l) :
    r.2.1 = k ∨ r.2.1 = l := by
  simp only [expandAll, makePairParts, List.mem_flatMap, List.mem_range,
    List.mem_map] at hr
  obtain ⟨k2, hk2, l2, hl2, rfl⟩ := hr
  simp only at hkey ⊢
  rw [pairKey_eq_iff] at hkey
  omega

/-- C1: running the Pair Expander over all `p ≥ 1` blocks yields exactly
`p*(p+1)/2` distinct PairKeys; for every `k ≤ l < p` the key of the
unordered pair `{k, l}` receives exactly one record when `k = l` and exactly
two when `k ≠ l`, and every record carrying that key originates from a block
whose index is `k` or `l`. -/
theorem C1_pair_expander_fanout {α : Type} (p k l : ℕ) (data : ℕ → α)
    (hp : 1 ≤ p) (hk : k ≤ l) (hl : l < p) :
    (distinctKeys p data).card = p * (p + 1) / 2 ∧
    keyCount p data (pairKey k l) = (if k = l then 1 else 2) ∧
    ∀ r ∈ expandAll p data, r.1 = pairKey k l → r.2.1 = k ∨ r.2.1 = l :=
  ⟨distinctKeys_card p data, keyCount_pairKey p k l data hk hl,
    fun r hr hkey => expandAll_key_source p k l data r hr hkey⟩

theorem C1_pair_expander_fanout_witness :
    (1 ≤ 3 ∧ 0 ≤ 1 ∧ 1 < 3) ∧
    ((distinctKeys 3 (fun _ => (0 : ℕ))).card = 3 * (3 + 1) / 2 ∧
     keyCount 3 (fun _ => (0 : ℕ)) (pairKey 0 1) = (if 0 = 1 then 1 else 2) ∧
     ∀ r ∈ expandAll 3 (fun _ => (0 : ℕ)),
       r.1 = pairKey 0 1 → r.2.1 = 0 ∨ r.2.1 = 1) :=
  ⟨⟨by decide, by decide, by decide⟩,
    C1_pair_expander_fanout 3 0 1 (fun _ => (0 : ℕ))
      (by decide) (by decide) (by decide)⟩

/-- C3: the PairKey canonicalization `sorted([k, l])` (rendered to the
grouping key by Python's `str`, which is injective on integer lists) is
symmetric, and injective on unordered pairs drawn from `[0, p)`: two keys
coincide exactly when the unordered pairs coincide. -/
theorem C3_pairKey_canonical (p k l k2 l2 : ℕ)
    (hk : k < p) (hl : l < p) (hk2 : k2 < p) (hl2 : l2 < p) :
    pairKey k l = pairKey l k ∧
    (pairKey k l = pairKey k2 l2 ↔ (k = k2 ∧ l = l2) ∨ (k = l2 ∧ l = k2)) :=
  ⟨pairKey_comm k l, pairKey_eq_iff k l k2 l2⟩

theorem C3_pairKey_canonical_witness :
    (0 < 3 ∧ 1 < 3 ∧ 1 < 3 ∧ 2 < 3) ∧
    (pairKey 0 1 = pairKey 1 0 ∧
     (pairKey 0 1 = pairKey 1 2 ↔ (0 = 1 ∧ 1 = 2) ∨ (0 = 2 ∧ 1 = 1))) :=
  ⟨⟨by decide, by decide, by decide, by decide⟩,
    C3_pairKey_canonical 3 0 1 1 2 (by decide) (by decide) (by decide) (by decide)⟩

/-- C9: the Stage 4 consumer `getCorrelation` ignores its incoming key
argument; the output key is recomputed solely from the block indices stored
inside the group's entries, so any two key arguments give equal results. -/
theorem C9_getCorrelation_ignores_key (k1 k2 : List ℕ)
    (v : List (ℕ × List (List ℝ))) :
    getCorrelation k1 v = getCorrelation k2 v := rfl

/-- C6 counterexample: with one input row and requested partition count 2,
Stage 1 emits two blocks, the first of them empty, and passes both
downstream: the partitioner neither caps `p` to `n` nor fails. -/
theorem C6_counterexample :
    stage1 [(42 : ℕ)] 2 = [(0, []), (1, [42])] ∧
    (0, ([] : List ℕ)) ∈ stage1 [(42 : ℕ)] 2 ∧
    (stage1 [(42 : ℕ)] 2).length = 2 := by decide

/-- C6 (amended): whenever the requested partition count `p` exceeds the row
count, Stage 1 still emits all `p` blocks — block 0 among them empty — and
passes them downstream unchanged; it neither caps `p` to `n` nor raises an
InvalidPartitionCount error. -/
theorem C6_empty_blocks_passed {α : Type} (rows : List α) (p : ℕ)
    (hp : rows.length < p) :
    (stage1 rows p).length = p ∧ (0, ([] : List α)) ∈ stage1 rows p := by
  constructor
  · simp [stage1]
  · have h0 : sparkSlice rows p 0 = [] := by
      unfold sparkSlice
      have hd : rows.length / p = 0 := Nat.div_eq_of_lt hp
      simp [hd]
    have hm : (0, sparkSlice rows p 0) ∈ stage1 rows p :=
      List.mem_map.mpr ⟨0, List.mem_range.mpr (by omega), rfl⟩
    rwa [h0] at hm

theorem C6_empty_blocks_passed_witness :
    ([(42 : ℕ)].length < 2) ∧
    ((stage1 [(42 : ℕ)] 2).length = 2 ∧ (0, ([] : List ℕ)) ∈ stage1 [(42 : ℕ)] 2) :=
  ⟨by decide, C6_empty_blocks_passed [(42 : ℕ)] 2 (by decide)⟩

/-- C2 counterexample: a two-entry group delivered with the higher-index
block first is emitted under key `(1, 0)` and not under
`(min, max) = (0, 1)`: the Block Correlator keeps the delivered order in its
output key. -/
theorem C2_counterexample :
    (getCorrelation [0, 1] [(1, [[1, 2]]), (0, [[3, 4]])]).map Prod.fst =
      some (1, 0) ∧ ((1 : ℕ), (0 : ℕ)) ≠ (0, 1) := ⟨rfl, by decide⟩

/-- C2 (amended): for a two-entry PairGroup the Block Correlator emits its
result keyed by the stored block indices in exactly the order the grouping
delivered the entries — `(i, j)` when the first entry has index `i` and the
second index `j` — so the key equals `(min(k,l), max(k,l))` only when the
lower-index block happens to arrive first; the code does assume the
delivered order rather than identifying the lower-index block itself. -/
theorem C2_key_follows_delivery (k : List ℕ) (i j : ℕ)
    (m m2 : List (List ℝ)) (rest : List (ℕ × List (List ℝ))) :
    getCorrelation k ((i, m) :: (j, m2) :: rest) =
      some ((i, j), corr2_coeff m m2) := rfl

/-- C7 counterexample: a malformed three-entry group with duplicated block
indices is consumed without any failure — `getCorrelation` silently computes
a result from the first two entries instead of surfacing a
MalformedPairGroup error. -/
theorem C7_counterexample :
    (getCorrelation [0, 0] [(0, [[1]]), (0, [[1]]), (0, [[1]])]).isSome = true :=
  rfl

/-- C7 (amended): the Block Correlator has no MalformedPairGroup handling.
The empty group fails with an unnamed IndexError (modelled `none`); every
nonempty group — including groups with more than two entries or with
duplicate block indices — silently produces a result computed from the
first one or two entries. -/
theorem C7_no_malformed_group_error (k : List ℕ)
    (v : List (ℕ × List (List ℝ))) (hv : v ≠ []) :
    getCorrelation k [] = none ∧ (getCorrelation k v).isSome = true := by
  refine ⟨rfl, ?_⟩
  match v with
  | [(i, m)] => rfl
  | (i, m) :: (j, m2) :: rest => rfl

theorem C7_no_malformed_group_error_witness :
    ([((0 : ℕ), [[(1 : ℝ)]])] ≠ []) ∧
    (getCorrelation [0, 0] [] = none ∧
      (getCorrelation [0, 0] [((0 : ℕ), [[(1 : ℝ)]])]).isSome = true) :=
  ⟨List.cons_ne_nil _ _,
    C7_no_malformed_group_error [0, 0] [((0 : ℕ), [[(1 : ℝ)]])] (List.cons_ne_nil _ _)⟩

theorem ss_nonneg (x : List ℝ) : 0 ≤ ss x := by
  apply List.sum_nonneg
  intro a ha
  obtain ⟨t, _, rfl⟩ := List.mem_map.mp ha
  positivity

theorem dotp_self (x : List ℝ) : dotp x x = ss x := by
  unfold dotp ss
  rw [List.zipWith_same]
  congr 1
  exact List.map_congr_left fun a _ => (sq a).symm

theorem dotp_comm (x y : List ℝ) : dotp x y = dotp y x := by
  unfold dotp
  rw [List.zipWith_comm_of_comm _ mul_comm]

theorem ss_center_of_short (x : List ℝ) (h : x.length ≤ 1) :
    ss (center x) = 0 := by
  match x with
  | [] => simp [center, ss]
  | [a] => simp [center, ss, mean]
  | a :: b :: t => simp at h

theorem getD_map_of_lt (f : α → β) (xs : List α) (i : ℕ) (d : α) (d2 : β)
    (hi : i < xs.length) : (xs.map f).getD i d2 = f (xs.getD i d) := by
  induction xs generalizing i with
  | nil => simp at hi
  | cons a xs ih =>
    cases i with
    | zero => rfl
    | succ n => simpa using ih n (by simpa using hi)

theorem corr2_coeff_entry (A B : List (List ℝ)) (i j : ℕ)
    (hi : i < A.length) (hj : j < B.length) :
    ((corr2_coeff A B).getD i []).getD j none =
      fdiv (dotp (center (A.getD i [])) (center (B.getD j [])))
        (Real.sqrt (ss (center (A.getD i [])) * ss (center (B.getD j [])))) := by
  unfold corr2_coeff
  simp only [List.map_map]
  rw [getD_map_of_lt _ A i [] [] hi]
  simp only [Function.comp_apply, List.map_map]
  rw [getD_map_of_lt _ B j [] none hj]
  rfl

theorem corr2_coeff_length (A B : List (List ℝ)) :
    (corr2_coeff A B).length = A.length := by
  simp [corr2_coeff]

theorem corr2_coeff_row_length (A B : List (List ℝ)) :
    ∀ row ∈ corr2_coeff A B, row.length = B.length := by
  intro row hrow
  simp only [corr2_coeff, List.map_map, List.mem_map] at hrow
  obtain ⟨a, _, rfl⟩ := hrow
  simp

theorem dotp_sq_le (x y : List ℝ) : dotp x y ^ 2 ≤ ss x * ss y := by
  induction x generalizing y with
  | nil => simp [dotp, ss, mul_nonneg, ss_nonneg]
  | cons a x ih =>
    cases y with
    | nil =>
      simp only [dotp, List.zipWith_nil_right, List.sum_nil]
      simpa [ss] using mul_nonneg (ss_nonneg (a :: x)) le_rfl
    | cons b y =>
      have h := ih y
      have hx := ss_nonneg x
      have hy := ss_nonneg y
      simp only [dotp, ss, List.zipWith_cons_cons, List.map_cons, List.sum_cons] at h hx hy ⊢
      rcases eq_or_lt_of_le hy with hq0 | hqpos
      · have hs2 : (List.zipWith (· * ·) x y).sum ^ 2 ≤ 0 := by nlinarith
        have hs : (List.zipWith (· * ·) x y).sum = 0 := by
          have := sq_nonneg (List.zipWith (· * ·) x y).sum
          nlinarith [sq_abs (List.zipWith (· * ·) x y).sum,
            abs_nonneg (List.zipWith (· * ·) x y).sum]
        rw [hs]
        nlinarith [mul_nonneg hx (sq_nonneg b)]
      · nlinarith [sq_nonneg (a * (y.map fun t => t ^ 2).sum -
            (List.zipWith (· * ·) x y).sum * b),
          mul_nonneg (sub_nonneg.mpr h)
            (add_nonneg hy (sq_nonneg b)), hqpos]

theorem ss_center_eq (x : List ℝ) :
    ss (center x) = (x.map fun a => (a - mean x) ^ 2).sum := by
  unfold ss center
  rw [List.map_map]
  rfl

/-- C4: entry `(i, j)` of `corr2_coeff A B` is exactly the sample Pearson
correlation of row `i` of `A` and row `j` of `B` as the specification words
it — centered cross products summed, divided by the square root of the
product of the two centered sums of squares — and the output matrix has
shape `|A|` by `|B|`. -/
theorem C4_corr2_is_pearson (A B : List (List ℝ)) (i j : ℕ)
    (hi : i < A.length) (hj : j < B.length) :
    ((corr2_coeff A B).getD i []).getD j none =
      pearsonSpec (A.getD i []) (B.getD j []) ∧
    (corr2_coeff A B).length = A.length ∧
    ∀ row ∈ corr2_coeff A B, row.length = B.length := by
  refine ⟨?_, corr2_coeff_length A B, corr2_coeff_row_length A B⟩
  rw [corr2_coeff_entry A B i j hi hj]
  unfold pearsonSpec
  have hnum : dotp (center (A.getD i [])) (center (B.getD j [])) =
      (List.zipWith (fun a b => (a - mean (A.getD i [])) * (b - mean (B.getD j [])))
        (A.getD i []) (B.getD j [])).sum := by
    unfold dotp center
    rw [List.zipWith_map]
  rw [hnum, ss_center_eq, ss_center_eq]

theorem C4_corr2_is_pearson_witness :
    (0 < [[(1 : ℝ), 2]].length ∧ 0 < [[(2 : ℝ), 1]].length) ∧
    (((corr2_coeff [[(1 : ℝ), 2]] [[(2 : ℝ), 1]]).getD 0 []).getD 0 none =
       pearsonSpec ([[(1 : ℝ), 2]].getD 0 []) ([[(2 : ℝ), 1]].getD 0 []) ∧
     (corr2_coeff [[(1 : ℝ), 2]] [[(2 : ℝ), 1]]).length = [[(1 : ℝ), 2]].length ∧
     ∀ row ∈ corr2_coeff [[(1 : ℝ), 2]] [[(2 : ℝ), 1]],
       row.length = [[(2 : ℝ), 1]].length) :=
  ⟨⟨by norm_num, by norm_num⟩,
    C4_corr2_is_pearson [[(1 : ℝ), 2]] [[(2 : ℝ), 1]] 0 0 (by norm_num) (by norm_num)⟩

/-- C5 counterexample: on a single-observation block (N = 1) the Block
Correlator does not fail at all: it returns an ordinary keyed result whose
single entry is the NaN produced by the 0/0 division — no
InsufficientObservations failure is surfaced. -/
theorem C5_counterexample :
    getCorrelation [0, 0] [(0, [[(5 : ℝ)]])] = some ((0, 0), [[none]]) := by
  have hc : corr2_coeff [[(5 : ℝ)]] [[(5 : ℝ)]] = [[none]] := by
    norm_num [corr2_coeff, center, mean, ss, dotp, fdiv, Real.sqrt_zero]
  show some ((0, 0), corr2_coeff [[(5 : ℝ)]] [[(5 : ℝ)]]) = some ((0, 0), [[none]])
  rw [hc]

theorem corr2_all_nan (A B : List (List ℝ)) (hA : ∀ r ∈ A, r.length ≤ 1) :
    ∀ row ∈ corr2_coeff A B, ∀ e ∈ row, e = none := by
  intro row hrow e he
  simp only [corr2_coeff, List.map_map, List.mem_map] at hrow
  obtain ⟨a, ha, rfl⟩ := hrow
  simp only [Function.comp_apply, List.map_map, List.mem_map] at he
  obtain ⟨a2, ha2, rfl⟩ := he
  have h0 : ss (center a) = 0 := ss_center_of_short a (hA a ha)
  simp [h0, Real.sqrt_zero, fdiv]

/-- C5 (amended): with fewer than two observations the Block Correlator does
not surface any named failure on any PairGroup: every nonempty group —
singleton diagonal or two-entry off-diagonal alike — is consumed normally
into a keyed result matrix all of whose entries are the NaN of the 0/0
division, since a row with at most one observation has zero centered sum of
squares. -/
theorem C5_small_N_gives_nan (key : List ℕ) (v : List (ℕ × List (List ℝ)))
    (N : ℕ) (hN : N < 2) (hv : v ≠ [])
    (hA : ∀ e ∈ v, ∀ r ∈ e.2, r.length = N) :
    ∃ kk M, getCorrelation key v = some (kk, M) ∧
      ∀ row ∈ M, ∀ e ∈ row, e = none := by
  match v with
  | [(i, m)] =>
    refine ⟨(i, i), corr2_coeff m m, rfl, corr2_all_nan m m ?_⟩
    intro r hr
    rw [hA (i, m) (List.mem_singleton.mpr rfl) r hr]
    omega
  | (i, m) :: (j, m2) :: rest =>
    refine ⟨(i, j), corr2_coeff m m2, rfl, corr2_all_nan m m2 ?_⟩
    intro r hr
    rw [hA (i, m) (List.mem_cons_self _ _) r hr]
    omega

theorem C5_small_N_gives_nan_witness :
    (1 < 2 ∧ ([((0 : ℕ), [[(5 : ℝ)]]), (1, [[7]])] ≠ []) ∧
     ∀ e ∈ [((0 : ℕ), [[(5 : ℝ)]]), (1, [[7]])], ∀ r ∈ e.2, r.length = 1) ∧
    (∃ kk M, getCorrelation [0, 1] [((0 : ℕ), [[(5 : ℝ)]]), (1, [[7]])] =
        some (kk, M) ∧ ∀ row ∈ M, ∀ e ∈ row, e = none) := by
  have hA : ∀ e ∈ [((0 : ℕ), [[(5 : ℝ)]]), (1, [[7]])], ∀ r ∈ e.2,
      r.length = 1 := by
    intro e he r hr
    simp only [List.mem_cons, List.not_mem_nil, or_false] at he
    rcases he with rfl | rfl <;>
      (rw [List.mem_singleton] at hr; subst hr; rfl)
  exact ⟨⟨by norm_num, List.cons_ne_nil _ _, hA⟩,
    C5_small_N_gives_nan [0, 1] [((0 : ℕ), [[(5 : ℝ)]]), (1, [[7]])] 1
      (by norm_num) (List.cons_ne_nil _ _) hA⟩

/-- C8: a diagonal PairGroup `(k, k)` is consumed into the square matrix
`corr2_coeff A A`; that matrix equals its own transpose, and when no row of
the block has zero variance every diagonal entry equals `1`. -/
theorem C8_diagonal_symmetric_unit (A : List (List ℝ)) (b : ℕ) (key : List ℕ)
    (hA : ∀ r ∈ A, ss (center r) ≠ 0) :
    getCorrelation key [(b, A)] = some ((b, b), corr2_coeff A A) ∧
    (corr2_coeff A A).length = A.length ∧
    (∀ row ∈ corr2_coeff A A, row.length = A.length) ∧
    (∀ i j, i < A.length → j < A.length →
      ((corr2_coeff A A).getD i []).getD j none =
        ((corr2_coeff A A).getD j []).getD i none) ∧
    (∀ i, i < A.length → ((corr2_coeff A A).getD i []).getD i none = some 1) := by
  refine ⟨rfl, corr2_coeff_length A A, corr2_coeff_row_length A A, ?_, ?_⟩
  · intro i j hi hj
    rw [corr2_coeff_entry A A i j hi hj, corr2_coeff_entry A A j i hj hi,
      dotp_comm, mul_comm]
  · intro i hi
    rw [corr2_coeff_entry A A i i hi hi, dotp_self,
      Real.sqrt_mul_self (ss_nonneg _)]
    have hmem : A.getD i [] ∈ A := by
      rw [List.getD_eq_getElem A [] hi]
      exact List.getElem_mem hi
    have hne := hA _ hmem
    unfold fdiv
    rw [if_neg hne, div_self hne]

theorem C8_diagonal_symmetric_unit_witness :
    (∀ r ∈ [[(0 : ℝ), 1]], ss (center r) ≠ 0) ∧
    (getCorrelation [0, 0] [(0, [[(0 : ℝ), 1]])] =
       some ((0, 0), corr2_coeff [[(0 : ℝ), 1]] [[(0 : ℝ), 1]]) ∧
     (corr2_coeff [[(0 : ℝ), 1]] [[(0 : ℝ), 1]]).length = [[(0 : ℝ), 1]].length ∧
     (∀ row ∈ corr2_coeff [[(0 : ℝ), 1]] [[(0 : ℝ), 1]],
       row.length = [[(0 : ℝ), 1]].length) ∧
     (∀ i j, i < [[(0 : ℝ), 1]].length → j < [[(0 : ℝ), 1]].length →
       ((corr2_coeff [[(0 : ℝ), 1]] [[(0 : ℝ), 1]]).getD i []).getD j none =
         ((corr2_coeff [[(0 : ℝ), 1]] [[(0 : ℝ), 1]]).getD j []).getD i none) ∧
     (∀ i, i < [[(0 : ℝ), 1]].length →
       ((corr2_coeff [[(0 : ℝ), 1]] [[(0 : ℝ), 1]]).getD i []).getD i none =
         some 1)) := by
  have hA : ∀ r ∈ [[(0 : ℝ), 1]], ss (center r) ≠ 0 := by
    intro r hr
    rw [List.mem_singleton] at hr
    subst hr
    norm_num [ss, center, mean]
  exact ⟨hA, C8_diagonal_symmetric_unit [[(0 : ℝ), 1]] 0 [0, 0] hA⟩

/-- C10: whenever the two operand rows have nonzero centered sums of
squares, the corresponding entry of `corr2_coeff` is a defined value lying
in the closed interval `[-1, 1]` (Cauchy-Schwarz bound). -/
theorem C10_entries_in_unit_interval (A B : List (List ℝ)) (i j : ℕ)
    (hi : i < A.length) (hj : j < B.length)
    (hA : ss (center (A.getD i [])) ≠ 0)
    (hB : ss (center (B.getD j [])) ≠ 0) :
    ∃ c, ((corr2_coeff A B).getD i []).getD j none = some c ∧
      -1 ≤ c ∧ c ≤ 1 := by
  rw [corr2_coeff_entry A B i j hi hj]
  set x := center (A.getD i []) with hx
  set y := center (B.getD j []) with hy
  have hxpos : 0 < ss x := lt_of_le_of_ne (ss_nonneg x) (Ne.symm hA)
  have hypos : 0 < ss y := lt_of_le_of_ne (ss_nonneg y) (Ne.symm hB)
  have hden : 0 < Real.sqrt (ss x * ss y) :=
    Real.sqrt_pos.mpr (mul_pos hxpos hypos)
  have habs : |dotp x y / Real.sqrt (ss x * ss y)| ≤ 1 := by
    rw [abs_div, abs_of_pos hden, div_le_one hden, ← Real.sqrt_sq_eq_abs]
    exact Real.sqrt_le_sqrt (dotp_sq_le x y)
  refine ⟨dotp x y / Real.sqrt (ss x * ss y), ?_, (abs_le.mp habs).1,
    (abs_le.mp habs).2⟩
  unfold fdiv
  rw [if_neg (ne_of_gt hden)]

theorem C10_entries_in_unit_interval_witness :
    (0 < [[(0 : ℝ), 1]].length ∧ ss (center ([[(0 : ℝ), 1]].getD 0 [])) ≠ 0) ∧
    (∃ c, ((corr2_coeff [[(0 : ℝ), 1]] [[(0 : ℝ), 1]]).getD 0 []).getD 0 none =
      some c ∧ -1 ≤ c ∧ c ≤ 1) := by
  have h1 : (0 : ℕ) < [[(0 : ℝ), 1]].length := by norm_num
  have h2 : ss (center ([[(0 : ℝ), 1]].getD 0 [])) ≠ 0 := by
    norm_num [ss, center, mean]
  exact ⟨⟨h1, h2⟩,
    C10_entries_in_unit_interval [[(0 : ℝ), 1]] [[(0 : ℝ), 1]] 0 0 h1 h1 h2 h2⟩

end DistMat
